import Mathlib

/-!
Verification development for the active-learning ratio-estimation
repository.  The Python source is shallowly embedded: parameter vectors
and feature vectors are lists of rationals, numpy arrays are Lean lists,
and the numpy primitives used by the code (`linspace`, `itertools.product`,
`array_split`, `argmax`/`argmin`, boolean mask writes) are given explicit
executable definitions mirroring their documented semantics.
-/

namespace ALRE

/-- Parameter vectors and feature vectors are rows of rationals. -/
abbrev Vec := List ℚ

/-! ## ParamGrid (dataset.py, `ParamGrid.__init__`) -/

/-- `np.linspace(a, b, num)`: `num` evenly spaced points from `a` to `b`
inclusive.  For `num = 1` numpy returns `[a]` (here the division by zero
yields zero, giving the same value); for `num = 0` the list is empty. -/
def linspace (a b : ℚ) (num : ℕ) : List ℚ :=
  (List.range num).map (fun (i : ℕ) => a + (i : ℚ) * (b - a) / ((num : ℚ) - 1))

/-- `itertools.product`: Cartesian product of the per-dimension lists,
first dimension outermost (last dimension fastest-varying). -/
def cartProd : List (List ℚ) → List Vec
  | [] => [[]]
  | l :: ls => l.flatMap (fun v => (cartProd ls).map (fun rest => v :: rest))

/-- The per-dimension linear spaces of `ParamGrid(bounds, num)`. -/
def paramGridLinspaces (bounds : List (ℚ × ℚ)) (nums : List ℕ) : List (List ℚ) :=
  List.zipWith (fun b n => linspace b.1 b.2 n) bounds nums

/-- The ordered list of parameter vectors enumerated by `ParamGrid`. -/
def paramGridValues (bounds : List (ℚ × ℚ)) (nums : List ℕ) : List Vec :=
  cartProd (paramGridLinspaces bounds nums)

/-! ## Trialed-mask derivation (active_learner.py, `ActiveLearner.__init__`)

`np.array([np.array(grid.values) == theta for theta in iterator])
   .all(axis=2).sum(axis=0).astype(bool)`:
a grid point is marked iff it equals some sampled vector elementwise. -/

/-- Derive the trialed mask: entry `g` is true iff some sampled vector
equals grid point `g` on every dimension. -/
def trialedMask (gridVals : List Vec) (thetas : List Vec) : List Bool :=
  gridVals.map (fun g => thetas.any (fun t => decide (t = g)))

/-! ### Lemmas on the grid enumeration -/

theorem flatMap_single {α β : Type} (f : α → β) (l : List α) :
    l.flatMap (fun v => [f v]) = l.map f := by
  induction l with
  | nil => rfl
  | cons a t ih => simp [ih]

theorem cartProd_single (l : List ℚ) : cartProd [l] = l.map (fun v => [v]) := by
  show l.flatMap _ = _
  simp only [cartProd, List.map_cons, List.map_nil]
  exact flatMap_single (fun v => [v]) l

theorem cartProd_pair (l1 l2 : List ℚ) :
    cartProd [l1, l2] = l1.flatMap (fun v => l2.map (fun w => [v, w])) := by
  show l1.flatMap _ = _
  rw [cartProd_single]
  simp only [List.map_map]
  rfl

theorem length_cartProd_pair (l1 l2 : List ℚ) :
    (cartProd [l1, l2]).length = l1.length * l2.length := by
  simp [cartProd_pair, List.length_flatMap]
  induction l1 with
  | nil => simp
  | cons a l ih => simp [ih, Nat.succ_mul, Nat.add_comm]

theorem cartProd_pair_getD (l1 l2 : List ℚ) (i j : ℕ)
    (hi : i < l1.length) (hj : j < l2.length) :
    (cartProd [l1, l2]).getD (i * l2.length + j) []
      = [l1.getD i 0, l2.getD j 0] := by
  induction l1 generalizing i with
  | nil => simp at hi
  | cons a l ih =>
    rw [cartProd_pair]
    cases i with
    | zero =>
      simp only [List.flatMap_cons, Nat.zero_mul, Nat.zero_add]
      rw [List.getD_append _ _ _ _ (by simpa using hj)]
      simp [List.getD, List.getElem?_eq_getElem hj]
    | succ i' =>
      simp only [List.flatMap_cons]
      rw [Nat.succ_mul, Nat.add_assoc, Nat.add_comm l2.length,
        ← Nat.add_assoc]
      rw [List.getD_append_right _ _ _ _ (by simp [List.length_map])]
      simp only [List.length_map, Nat.add_sub_cancel]
      rw [← cartProd_pair, ih i' (by simpa using hi)]
      simp

/-- The claim's concrete 1-D grid. -/
theorem paramGridValues_unit :
    paramGridValues [(0, 1)] [5]
      = [[0], [1/4], [1/2], [3/4], [1]] := by
  simp [paramGridValues, paramGridLinspaces, linspace, cartProd, List.range_succ]
  norm_num

theorem length_linspace (a b : ℚ) (n : ℕ) : (linspace a b n).length = n := by
  rw [linspace, List.length_map, List.length_range]

/-- C9: `ParamGrid(bounds=[(0,1)], num=5)` enumerates exactly the five
values `[0, 0.25, 0.5, 0.75, 1]` in that order; in general the grid is the
Cartesian product of the per-dimension linear spaces with the first
dimension outermost (last dimension fastest-varying): for a 2-D grid the
value at flat index `i * n2 + j` is the pair of the `i`-th point of the
first linspace and the `j`-th point of the second. -/
theorem paramGrid_enumeration :
    paramGridValues [(0, 1)] [5] = [[0], [1/4], [1/2], [3/4], [1]] ∧
    ∀ (b1 b2 : ℚ × ℚ) (n1 n2 i j : ℕ), i < n1 → j < n2 →
      (paramGridValues [b1, b2] [n1, n2]).getD (i * n2 + j) []
        = [(linspace b1.1 b1.2 n1).getD i 0, (linspace b2.1 b2.2 n2).getD j 0] := by
  refine ⟨paramGridValues_unit, ?_⟩
  intro b1 b2 n1 n2 i j hi hj
  have h1 : i < (linspace b1.1 b1.2 n1).length := by rw [length_linspace]; exact hi
  have h2 : j < (linspace b2.1 b2.2 n2).length := by rw [length_linspace]; exact hj
  have h := cartProd_pair_getD (linspace b1.1 b1.2 n1) (linspace b2.1 b2.2 n2) i j h1 h2
  rw [length_linspace] at h
  simpa [paramGridValues, paramGridLinspaces] using h

/-- Witness for the hypotheses of `paramGrid_enumeration`: a 2×3 grid,
index (1,2). -/
theorem paramGrid_enumeration_witness :
    (paramGridValues [((0:ℚ), (1:ℚ)), ((0:ℚ), (2:ℚ))] [2, 3]).getD (1 * 3 + 2) []
      = [1, 2] := by
  have h := paramGrid_enumeration.2 (0, 1) (0, 2) 2 3 1 2 (by norm_num) (by norm_num)
  rw [h]
  norm_num [linspace, List.range_succ]

/-- C8: a grid point is marked trialed iff some already-sampled parameter
vector equals it elementwise; trialing `0.5` on `ParamGrid([(0,1)], 5)`
sets exactly the mask `[F, F, T, F, F]`. -/
theorem trialedMask_correct :
    (∀ (gridVals thetas : List Vec) (i : ℕ), i < gridVals.length →
      ((trialedMask gridVals thetas).getD i false = true ↔
        ∃ t ∈ thetas, t = gridVals.getD i [])) ∧
    trialedMask (paramGridValues [(0, 1)] [5]) [[1/2]]
      = [false, false, true, false, false] := by
  constructor
  · intro gv ts i hi
    have hi' : i < (trialedMask gv ts).length := by simpa [trialedMask] using hi
    rw [List.getD_eq_getElem _ _ hi', List.getD_eq_getElem _ _ hi]
    simp [trialedMask, List.any_eq_true]
  · rw [paramGridValues_unit]
    simp only [trialedMask, List.map_cons, List.map_nil, List.any_cons, List.any_nil]
    norm_num

/-- Witness for the hypotheses of `trialedMask_correct`: grid `[[0],[1]]`,
sampled vector `[1]`, index 1. -/
theorem trialedMask_correct_witness :
    (trialedMask [[(0:ℚ)], [1]] [[1]]).getD 1 false = true ↔
      ∃ t ∈ [[(1:ℚ)]], t = ([[(0:ℚ)], [1]] : List Vec).getD 1 [] :=
  trialedMask_correct.1 [[(0:ℚ)], [1]] [[1]] 1 (by norm_num)

/-! ## RatioDataset (dataset.py, `RatioDataset`) -/

/-- The per-example arrays of a `RatioDataset`; `y` and `nllr` are
optional, as in the Python constructor. -/
structure RatioDataset where
  x : List Vec
  theta_0s : List Vec
  theta_1s : List Vec
  y : Option (List ℚ)
  nllr : Option (List ℚ)

/-- `len(dataset)` is `len(dataset.x)`. -/
def dsLen (ds : RatioDataset) : ℕ := ds.x.length

/-- The lengths the constructor collects: `arrs = [x, theta_0s, theta_1s]`
plus `y` and `nllr` when they are given. -/
def arrLens (x theta_0s theta_1s : List Vec) (y nllr : Option (List ℚ)) : List ℕ :=
  [x.length, theta_0s.length, theta_1s.length]
    ++ (match y with | some l => [l.length] | none => [])
    ++ (match nllr with | some l => [l.length] | none => [])

/-- `RatioDataset.__init__` (shuffling aside): raises `ValueError` when
`len(set(map(len, arrs))) != 1`, i.e. when the deduplicated list of array
lengths does not have exactly one element. -/
def mkRatioDataset (x theta_0s theta_1s : List Vec) (y nllr : Option (List ℚ)) :
    Except String RatioDataset :=
  if (arrLens x theta_0s theta_1s y nllr).dedup.length = 1 then
    Except.ok ⟨x, theta_0s, theta_1s, y, nllr⟩
  else
    Except.error "Arrays have different lengths"

/-- All arrays of a dataset share its length (the constructor invariant). -/
def dsValid (ds : RatioDataset) : Prop :=
  ds.theta_0s.length = dsLen ds ∧ ds.theta_1s.length = dsLen ds ∧
    (∀ l, ds.y = some l → l.length = dsLen ds) ∧
    (∀ l, ds.nllr = some l → l.length = dsLen ds)

theorem dedup_length_one_iff (a : ℕ) (l : List ℕ) :
    ((a :: l).dedup.length = 1) ↔ ∀ b ∈ l, b = a := by
  rw [← List.card_toFinset]
  constructor
  · intro h b hb
    rcases Finset.card_eq_one.mp h with ⟨c, hc⟩
    have ha : a ∈ (a :: l).toFinset := by simp
    have hb' : b ∈ (a :: l).toFinset := by simp [hb]
    rw [hc] at ha hb'
    simp only [Finset.mem_singleton] at ha hb'
    rw [hb', ha]
  · intro h
    have hs : (a :: l).toFinset = {a} := by
      ext b
      simp only [List.toFinset_cons, Finset.mem_insert, List.mem_toFinset,
        Finset.mem_singleton]
      constructor
      · rintro (rfl | hb)
        · rfl
        · exact h b hb
      · intro hb
        exact Or.inl hb
    rw [hs, Finset.card_singleton]

/-- C5: construction succeeds (yielding a dataset of the common length)
iff every per-example array has the same length as `x`; otherwise it fails
with the `ValueError`. -/
theorem ratioDataset_construction (x t0 t1 : List Vec) (y nl : Option (List ℚ)) :
    ((mkRatioDataset x t0 t1 y nl = Except.ok ⟨x, t0, t1, y, nl⟩ ∧
        dsLen ⟨x, t0, t1, y, nl⟩ = x.length) ↔
      (t0.length = x.length ∧ t1.length = x.length ∧
        (∀ l, y = some l → l.length = x.length) ∧
        (∀ l, nl = some l → l.length = x.length))) ∧
    (¬ (t0.length = x.length ∧ t1.length = x.length ∧
        (∀ l, y = some l → l.length = x.length) ∧
        (∀ l, nl = some l → l.length = x.length)) →
      mkRatioDataset x t0 t1 y nl = Except.error "Arrays have different lengths") := by
  have key : (arrLens x t0 t1 y nl).dedup.length = 1 ↔
      (t0.length = x.length ∧ t1.length = x.length ∧
        (∀ l, y = some l → l.length = x.length) ∧
        (∀ l, nl = some l → l.length = x.length)) := by
    have harr : arrLens x t0 t1 y nl
        = x.length :: ([t0.length, t1.length]
            ++ (match y with | some l => [l.length] | none => [])
            ++ (match nl with | some l => [l.length] | none => [])) := by
      simp [arrLens]
    rw [harr, dedup_length_one_iff]
    cases y <;> cases nl <;> simp
  constructor
  · rw [← key]
    constructor
    · rintro ⟨h, -⟩
      by_contra hne
      simp [mkRatioDataset, hne] at h
    · intro h
      exact ⟨by simp [mkRatioDataset, h], rfl⟩
  · intro h
    rw [← key] at h
    simp [mkRatioDataset, h]

/-- Witness for the hypotheses of `ratioDataset_construction`: mismatched
lengths make construction fail. -/
theorem ratioDataset_construction_witness :
    mkRatioDataset [[(1:ℚ)], [2]] [[0]] [[5], [6]] none none
      = Except.error "Arrays have different lengths" := by
  have h := (ratioDataset_construction [[(1:ℚ)], [2]] [[0]] [[5], [6]] none none).2
  rw [h]
  intro hc
  have := hc.1
  norm_num at this

/-! ## Shuffle (dataset.py, `RatioDataset.shuffle`) -/

/-- Numpy fancy indexing `arr[p]` for a permutation `p` of the row
indices (`np.random.permutation(len(self.x))`). -/
def applyPerm (p : List ℕ) (l : List Vec) : List Vec :=
  p.map (fun i => l.getD i [])

/-- `arr[p]` for a 1-D array. -/
def applyPermQ (p : List ℕ) (l : List ℚ) : List ℚ :=
  p.map (fun i => l.getD i 0)

/-- `RatioDataset.shuffle`: the one permutation `p` is applied to `x`,
`theta_0s`, `theta_1s`, and to `y` and `nllr` when they are present. -/
def shuffleDs (p : List ℕ) (ds : RatioDataset) : RatioDataset :=
  ⟨applyPerm p ds.x, applyPerm p ds.theta_0s, applyPerm p ds.theta_1s,
    ds.y.map (applyPermQ p), ds.nllr.map (applyPermQ p)⟩

theorem map_getD_range {α : Type} (l : List α) (d : α) :
    (List.range l.length).map (fun i => l.getD i d) = l := by
  apply List.ext_getElem
  · simp
  · intro i h1 h2
    simp only [List.getElem_map, List.getElem_range]
    rw [List.getD_eq_getElem _ _ h2]

/-- C6: shuffling with a permutation of the row indices keeps the dataset
length and the multiset of per-example `(x_i, y_i, theta_1_i)` tuples
unchanged. -/
theorem shuffle_preserves (p : List ℕ) (x t0 t1 : List Vec) (ys : List ℚ)
    (nl : Option (List ℚ))
    (hp : p.Perm (List.range x.length))
    (hy : ys.length = x.length) (ht1 : t1.length = x.length) :
    dsLen (shuffleDs p ⟨x, t0, t1, some ys, nl⟩) = dsLen ⟨x, t0, t1, some ys, nl⟩ ∧
    ((shuffleDs p ⟨x, t0, t1, some ys, nl⟩).x.zip
        ((((shuffleDs p ⟨x, t0, t1, some ys, nl⟩).y).getD []).zip
          (shuffleDs p ⟨x, t0, t1, some ys, nl⟩).theta_1s)).Perm
      (x.zip (ys.zip t1)) := by
  constructor
  · show (applyPerm p x).length = x.length
    rw [applyPerm, List.length_map, hp.length_eq, List.length_range]
  · show ((applyPerm p x).zip ((applyPermQ p ys).zip (applyPerm p t1))).Perm _
    rw [applyPerm, applyPermQ, applyPerm, List.zip_map', List.zip_map']
    have hmap := hp.map
      (fun i => (x.getD i [], (ys.getD i 0, t1.getD i [])))
    refine hmap.trans ?_
    have hx := map_getD_range x ([] : Vec)
    have hys : (List.range x.length).map (fun i => ys.getD i 0) = ys := by
      rw [← hy]; exact map_getD_range ys 0
    have ht : (List.range x.length).map (fun i => t1.getD i []) = t1 := by
      rw [← ht1]; exact map_getD_range t1 []
    rw [← List.zip_map', ← List.zip_map', hx, hys, ht]

/-- Witness for the hypotheses of `shuffle_preserves`: swapping the two
rows of a two-example dataset. -/
theorem shuffle_preserves_witness :
    dsLen (shuffleDs [1, 0] ⟨[[1], [2]], [[0], [0]], [[5], [6]], some [0, 1], none⟩)
        = dsLen ⟨[[1], [2]], [[0], [0]], [[5], [6]], some [0, 1], none⟩ ∧
    ((shuffleDs [1, 0] ⟨[[1], [2]], [[0], [0]], [[5], [6]], some [0, 1], none⟩).x.zip
        ((((shuffleDs [1, 0]
              ⟨[[1], [2]], [[0], [0]], [[5], [6]], some [0, 1], none⟩).y).getD []).zip
          (shuffleDs [1, 0]
              ⟨[[1], [2]], [[0], [0]], [[5], [6]], some [0, 1], none⟩).theta_1s)).Perm
      ([[1], [2]].zip ([0, 1].zip [[5], [6]])) :=
  shuffle_preserves [1, 0] [[1], [2]] [[0], [0]] [[5], [6]] [0, 1] none
    (by decide) (by decide) (by decide)

/-! ## Dataset concatenation (`dataset += new_ds` in `ActiveLearner.step`) -/

def optCat : Option (List ℚ) → Option (List ℚ) → Option (List ℚ)
  | some l1, some l2 => some (l1 ++ l2)
  | _, _ => none

/-- Modelled from the spec: the `RatioDataset` concatenation method behind
the active-learning loop's `dataset += new_ds` is not among the provided
sources; per the spec, "concatenating two datasets yields a dataset whose
arrays are the elementwise concatenation of the operands' arrays (lengths
sum)". -/
def dsAdd (a b : RatioDataset) : RatioDataset :=
  ⟨a.x ++ b.x, a.theta_0s ++ b.theta_0s, a.theta_1s ++ b.theta_1s,
    optCat a.y b.y, optCat a.nllr b.nllr⟩

/-- C7: concatenation appends every per-example array, its length is the
sum of the operands' lengths, and it preserves the equal-length
invariant. -/
theorem dsAdd_spec (a b : RatioDataset) (ha : dsValid a) (hb : dsValid b) :
    dsLen (dsAdd a b) = dsLen a + dsLen b ∧
    (dsAdd a b).x = a.x ++ b.x ∧
    (dsAdd a b).theta_0s = a.theta_0s ++ b.theta_0s ∧
    (dsAdd a b).theta_1s = a.theta_1s ++ b.theta_1s ∧
    (∀ la lb, a.y = some la → b.y = some lb → (dsAdd a b).y = some (la ++ lb)) ∧
    (∀ la lb, a.nllr = some la → b.nllr = some lb →
      (dsAdd a b).nllr = some (la ++ lb)) ∧
    dsValid (dsAdd a b) := by
  obtain ⟨ha0, ha1, hay, han⟩ := ha
  obtain ⟨hb0, hb1, hby, hbn⟩ := hb
  refine ⟨?_, rfl, rfl, rfl, ?_, ?_, ?_, ?_, ?_, ?_⟩
  · show (a.x ++ b.x).length = _
    rw [List.length_append]; rfl
  · intro la lb hla hlb
    show optCat a.y b.y = _
    rw [hla, hlb, optCat]
  · intro la lb hla hlb
    show optCat a.nllr b.nllr = _
    rw [hla, hlb, optCat]
  · show (a.theta_0s ++ b.theta_0s).length = (a.x ++ b.x).length
    rw [List.length_append, List.length_append, ha0, hb0]; rfl
  · show (a.theta_1s ++ b.theta_1s).length = (a.x ++ b.x).length
    rw [List.length_append, List.length_append, ha1, hb1]; rfl
  · intro l hl
    show l.length = (a.x ++ b.x).length
    have hl' : optCat a.y b.y = some l := hl
    rcases hay' : a.y with _ | la <;> rcases hby' : b.y with _ | lb <;>
      rw [hay', hby'] at hl' <;>
      simp only [optCat, Option.some.injEq] at hl' <;>
      try exact Option.noConfusion hl'
    rw [← hl', List.length_append, List.length_append,
      hay la hay', hby lb hby']; rfl
  · intro l hl
    show l.length = (a.x ++ b.x).length
    have hl' : optCat a.nllr b.nllr = some l := hl
    rcases han' : a.nllr with _ | la <;> rcases hbn' : b.nllr with _ | lb <;>
      rw [han', hbn'] at hl' <;>
      simp only [optCat, Option.some.injEq] at hl' <;>
      try exact Option.noConfusion hl'
    rw [← hl', List.length_append, List.length_append,
      han la han', hbn lb hbn']; rfl

/-- Witness for the hypotheses of `dsAdd_spec`: two one-example
datasets. -/
theorem dsAdd_spec_witness :
    dsLen (dsAdd ⟨[[1]], [[0]], [[5]], some [0], none⟩
        ⟨[[2]], [[0]], [[6]], some [1], none⟩)
      = dsLen (⟨[[1]], [[0]], [[5]], some [0], none⟩ : RatioDataset)
        + dsLen (⟨[[2]], [[0]], [[6]], some [1], none⟩ : RatioDataset) ∧
    (dsAdd ⟨[[1]], [[0]], [[5]], some [0], none⟩
        ⟨[[2]], [[0]], [[6]], some [1], none⟩).x = [[1]] ++ [[2]] ∧
    dsValid (dsAdd ⟨[[1]], [[0]], [[5]], some [0], none⟩
        ⟨[[2]], [[0]], [[6]], some [1], none⟩) := by
  have h := dsAdd_spec ⟨[[1]], [[0]], [[5]], some [0], none⟩
      ⟨[[2]], [[0]], [[6]], some [1], none⟩
      (by simp [dsValid, dsLen])
      (by simp [dsValid, dsLen])
  exact ⟨h.1, h.2.1, h.2.2.2.2.2.2⟩

/-! ## SinglyParameterizedRatioDataset construction (dataset.py) -/

/-- Modelled from the spec: `util.concat_repeat(arr, reps, axis=0)` is not
among the provided sources; its call sites (doubling `theta_1s` here and
repeating `X_true` whole in `param_scan`, whose equal-size `np.split`
inverts it) fix it as concatenating `reps` whole copies of the array along
the example axis. -/
def concatRepeat {α : Type} (l : List α) (reps : ℕ) : List α :=
  (List.replicate reps l).flatten

/-- The `theta_1s` rows written by the sampling loop before doubling:
block `i` holds `n_samples_per_theta` copies of the `i`-th alternate
parameter. -/
def spdTheta1sBlock (thetas : List Vec) (n : ℕ) : List Vec :=
  thetas.flatMap (fun θ => List.replicate n θ)

/-- The final `theta_1s` array: `concat_repeat(theta_1s, 2, axis=0)`. -/
def spdTheta1s (thetas : List Vec) (n : ℕ) : List Vec :=
  concatRepeat (spdTheta1sBlock thetas n) 2

/-- The label array: `y0 = zeros(len(x0))`, `y1 = ones_like(y0)`,
`y = concatenate([y0, y1])`, with `len(x0) = n * len(thetas)`. -/
def spdY (thetas : List Vec) (n : ℕ) : List ℚ :=
  List.replicate (n * thetas.length) 0 ++ List.replicate (n * thetas.length) 1

theorem spdTheta1sBlock_length (thetas : List Vec) (n : ℕ) :
    (spdTheta1sBlock thetas n).length = n * thetas.length := by
  induction thetas with
  | nil => simp [spdTheta1sBlock]
  | cons θ rest ih =>
    simp only [spdTheta1sBlock, List.flatMap_cons, List.length_append,
      List.length_replicate] at ih ⊢
    rw [ih, List.length_cons, Nat.mul_succ, Nat.add_comm]

/-- C10: in the constructed dataset (before any shuffle) the `theta_1s`
rows of the label-0 half coincide, element for element and in order, with
those of the label-1 half, and both equal the per-alternate-parameter
blocks — so label-0 examples carry alternate-parameter values. -/
theorem spd_theta1s_halves (thetas : List Vec) (n : ℕ) :
    (spdTheta1s thetas n).length = 2 * (n * thetas.length) ∧
    (spdTheta1s thetas n).take (n * thetas.length)
      = (spdTheta1s thetas n).drop (n * thetas.length) ∧
    (spdTheta1s thetas n).take (n * thetas.length) = spdTheta1sBlock thetas n ∧
    spdY thetas n
      = List.replicate (n * thetas.length) 0
        ++ List.replicate (n * thetas.length) 1 := by
  have hb := spdTheta1sBlock_length thetas n
  have hdef : spdTheta1s thetas n
      = spdTheta1sBlock thetas n ++ spdTheta1sBlock thetas n := by
    simp [spdTheta1s, concatRepeat, List.replicate]
  refine ⟨?_, ?_, ?_, rfl⟩
  · rw [hdef, List.length_append, hb, Nat.two_mul]
  · rw [hdef, ← hb, List.take_left, List.drop_left]
  · rw [hdef, ← hb, List.take_left]

/-! ## nllr computation (dataset.py, `SinglyParameterizedRatioDataset`)

`sim.log_prob` is abstracted as a rational-valued log-density
`logp : Vec → Vec → ℚ` (parameter, then example).  The sampled blocks are
given per alternate parameter, mirroring the slices
`[i*n_samples_per_theta : (i+1)*n_samples_per_theta]` of the loop. -/

/-- The nllr arrays exactly as the loop computes them: the lines inside
`if include_nllr` assign `ll0_x0` twice and `ll1_x1` twice, so `ll0_x1`
and `ll1_x0` keep their `np.zeros_like(y0)` initial values. -/
def nllrAsCoded (logp : Vec → Vec → ℚ) (theta_0 : Vec) (thetas : List Vec)
    (x0blocks x1blocks : List (List Vec)) : List ℚ :=
  let ll0_x0 := (x0blocks.map (fun blk => blk.map (logp theta_0))).flatten
  let ll1_x1 :=
    (List.zipWith (fun θ blk => blk.map (logp θ)) thetas x1blocks).flatten
  let ll0_x1 := List.replicate ll1_x1.length (0 : ℚ)
  let ll1_x0 := List.replicate ll0_x0.length (0 : ℚ)
  List.zipWith (fun a b => -(b - a)) (ll0_x0 ++ ll0_x1) (ll1_x0 ++ ll1_x1)

/-- The per-example `nllr = -(log p1(x) - log p0(x))` the claim requires,
with all four distinct log-densities evaluated. -/
def nllrPerSpec (logp : Vec → Vec → ℚ) (theta_0 : Vec) (thetas : List Vec)
    (x0blocks x1blocks : List (List Vec)) : List ℚ :=
  let ll0_x0 := (x0blocks.map (fun blk => blk.map (logp theta_0))).flatten
  let ll0_x1 := (x1blocks.map (fun blk => blk.map (logp theta_0))).flatten
  let ll1_x0 :=
    (List.zipWith (fun θ blk => blk.map (logp θ)) thetas x0blocks).flatten
  let ll1_x1 :=
    (List.zipWith (fun θ blk => blk.map (logp θ)) thetas x1blocks).flatten
  List.zipWith (fun a b => -(b - a)) (ll0_x0 ++ ll0_x1) (ll1_x0 ++ ll1_x1)

/-- C1 (code bug): with log-density `logp θ x = θ + x` (first components),
`theta_0 = [0]`, one alternate parameter `[1]`, reference draw `[2]` and
alternate draw `[3]`, the code produces `[2, -4]` while the claimed
formula gives `[-1, -1]`: the code never computes `log p1(x0)` or
`log p0(x1)`. -/
theorem nllr_code_bug :
    nllrAsCoded (fun θ x => θ.headD 0 + x.headD 0) [0] [[1]] [[[2]]] [[[3]]]
      = [2, -4] ∧
    nllrPerSpec (fun θ x => θ.headD 0 + x.headD 0) [0] [[1]] [[[2]]] [[[3]]]
      = [-1, -1] ∧
    ([2, -4] : List ℚ) ≠ [-1, -1] := by
  refine ⟨?_, ?_, by norm_num⟩
  · show List.zipWith _ _ _ = _
    norm_num [nllrAsCoded]
  · show List.zipWith _ _ _ = _
    norm_num [nllrPerSpec]

/-! ## ActiveLearner.step bookkeeping (active_learner.py, `step`) -/

/-- The trialed-mask transition of `ActiveLearner.step()`: the selection
policy (abstracted as a function of the mask) picks an index;
`assert self._trialed_mask[next_theta_index] == 0` fails fatally (`none`)
when the entry is already true, otherwise the entry becomes true.  An
out-of-range index is likewise a fatal `IndexError`. -/
def stepMark (choose : List Bool → ℕ) (mask : List Bool) : Option (List Bool) :=
  if choose mask < mask.length then
    if mask.getD (choose mask) false then none
    else some (mask.set (choose mask) true)
  else none

/-- `ActiveLearner.fit(n)`: `n` consecutive successful `step()` calls. -/
def stepsN (choose : List Bool → ℕ) : ℕ → List Bool → Option (List Bool)
  | 0, m => some m
  | n + 1, m => (stepMark choose m).bind (stepsN choose n)

theorem count_set_true (l : List Bool) (i : ℕ) (hi : i < l.length)
    (hf : l.getD i false = false) :
    (l.set i true).count true = l.count true + 1 := by
  induction l generalizing i with
  | nil => simp at hi
  | cons b t ih =>
    cases i with
    | zero =>
      simp only [List.getD_cons_zero] at hf
      simp [hf, List.count_cons]
    | succ i' =>
      simp only [List.getD_cons_succ] at hf
      simp only [List.set_cons_succ, List.count_cons,
        ih i' (by simpa using hi) hf]
      omega

theorem getD_set_true (l : List Bool) (i j : ℕ) (h : l.getD j false = true) :
    (l.set i true).getD j false = true := by
  have hj : j < l.length := by
    by_contra hge
    rw [List.getD_eq_default _ _ (Nat.le_of_not_lt hge)] at h
    exact Bool.false_ne_true h
  have hj' : j < (l.set i true).length := by rw [List.length_set]; exact hj
  rw [List.getD_eq_getElem _ _ hj'] at *
  rw [List.getElem_set]
  by_cases hij : i = j
  · simp [hij]
  · simp only [hij, if_false]
    rw [List.getD_eq_getElem _ _ hj] at h
    exact h

theorem stepsN_invariant (choose : List Bool → ℕ) (n : ℕ) :
    ∀ m m' : List Bool, stepsN choose n m = some m' →
      m'.length = m.length ∧ m'.count true = m.count true + n ∧
      (∀ i, m.getD i false = true → m'.getD i false = true) := by
  induction n with
  | zero =>
    intro m m' h
    simp only [stepsN, Option.some.injEq] at h
    simp [← h]
  | succ k ih =>
    intro m m' h
    simp only [stepsN] at h
    by_cases h1 : choose m < m.length
    · by_cases h2 : m.getD (choose m) false
      · rw [List.getD_eq_getElem _ _ h1] at h2
        simp [stepMark, h1, h2] at h
      · simp only [stepMark, h1, if_true, h2, Bool.false_eq_true, if_false,
          Option.some_bind] at h
        obtain ⟨hlen, hcount, hmono⟩ := ih (m.set (choose m) true) m' h
        refine ⟨?_, ?_, ?_⟩
        · rw [hlen, List.length_set]
        · rw [hcount, count_set_true m (choose m) h1 (by simpa using h2)]
          omega
        · intro i hi
          exact hmono i (getD_set_true m (choose m) i hi)
    · simp [stepMark, h1] at h

/-- C2: after `n` successful `step()` calls exactly `n` additional entries
of the trialed mask are true (each previously false: every previously-true
entry stays true and the count grows by exactly `n`); and a step whose
chosen index is already trialed fails fatally at the assertion, before
marking. -/
theorem step_trialed_mask (choose : List Bool → ℕ) (n : ℕ) (m m' : List Bool)
    (h : stepsN choose n m = some m') :
    m'.length = m.length ∧
    m'.count true = m.count true + n ∧
    (∀ i, m.getD i false = true → m'.getD i false = true) ∧
    (∀ mask : List Bool, mask.getD (choose mask) false = true →
      stepMark choose mask = none) := by
  obtain ⟨h1, h2, h3⟩ := stepsN_invariant choose n m m' h
  refine ⟨h1, h2, h3, ?_⟩
  intro mask hmask
  by_cases hlt : choose mask < mask.length
  · rw [List.getD_eq_getElem _ _ hlt] at hmask
    simp [stepMark, hlt, hmask]
  · simp [stepMark, hlt]

/-- Witness for the hypotheses of `step_trialed_mask`: one step with the
constant-0 policy on the mask `[false]`. -/
theorem step_trialed_mask_witness :
    ([true] : List Bool).length = ([false] : List Bool).length ∧
    ([true] : List Bool).count true = ([false] : List Bool).count true + 1 ∧
    (∀ i, ([false] : List Bool).getD i false = true →
      ([true] : List Bool).getD i false = true) ∧
    (∀ mask : List Bool, mask.getD ((fun _ => 0) mask) false = true →
      stepMark (fun _ => 0) mask = none) :=
  step_trialed_mask (fun _ => 0) 1 [false] [true] (by decide)

/-! ## UCB selection (active_learner.py, `choose_next_theta_index`) -/

/-- The UCB values `U_theta_pred + kappa * std` with the entries of
already-trialed grid points forced to `-np.inf`
(`ucb[self._trialed_mask] = -np.inf`); `⊥ : WithBot ℚ` models `-inf`. -/
def ucbMasked (mean std : List ℚ) (kappa : ℚ) (mask : List Bool) :
    List (WithBot ℚ) :=
  ((List.zipWith (fun m s => m + kappa * s) mean std).zip mask).map
    (fun p => if p.2 then (⊥ : WithBot ℚ) else (p.1 : WithBot ℚ))

/-- `np.argmax`: the first index attaining the maximum. -/
def argmaxIdx (l : List (WithBot ℚ)) : ℕ :=
  l.findIdx (fun v => l.all (fun w => decide (w ≤ v)))

/-- The acquisition-guided branch of `choose_next_theta_index`:
`np.argmax(ucb)` after masking. -/
def chooseNextThetaIndexUCB (mean std : List ℚ) (kappa : ℚ)
    (mask : List Bool) : ℕ :=
  argmaxIdx (ucbMasked mean std kappa mask)

theorem exists_max_mem (l : List (WithBot ℚ)) (hne : l ≠ []) :
    ∃ v ∈ l, ∀ w ∈ l, w ≤ v := by
  induction l with
  | nil => exact absurd rfl hne
  | cons a t ih =>
    cases t with
    | nil =>
      refine ⟨a, by simp, ?_⟩
      intro w hw
      rw [List.mem_singleton] at hw
      rw [hw]
    | cons b t2 =>
      obtain ⟨v, hv, hall⟩ := ih (by simp)
      by_cases hav : a ≤ v
      · refine ⟨v, List.mem_cons_of_mem a hv, ?_⟩
        intro w hw
        rcases List.mem_cons.mp hw with rfl | hw'
        · exact hav
        · exact hall w hw'
      · refine ⟨a, List.mem_cons_self a _, ?_⟩
        intro w hw
        rcases List.mem_cons.mp hw with rfl | hw'
        · exact le_refl w
        · exact le_trans (hall w hw') (le_of_not_le hav)

theorem length_ucbMasked (mean std : List ℚ) (kappa : ℚ) (mask : List Bool)
    (hm : mean.length = mask.length) (hs : std.length = mask.length) :
    (ucbMasked mean std kappa mask).length = mask.length := by
  simp [ucbMasked, hm, hs]

theorem getElem_ucbMasked (mean std : List ℚ) (kappa : ℚ) (mask : List Bool)
    (hm : mean.length = mask.length) (hs : std.length = mask.length)
    (j : ℕ) (hj : j < mask.length) :
    (ucbMasked mean std kappa mask).getD j 0
      = if mask.getD j true then (⊥ : WithBot ℚ)
        else ((mean.getD j 0 + kappa * std.getD j 0 : ℚ) : WithBot ℚ) := by
  have hz : (List.zipWith (fun m s => m + kappa * s) mean std).length
      = mask.length := by simp [hm, hs]
  have hj1 : j < (ucbMasked mean std kappa mask).length := by
    rw [length_ucbMasked mean std kappa mask hm hs]; exact hj
  simp only [ucbMasked] at hj1 ⊢
  rw [List.getD_eq_getElem _ _ hj1, List.getElem_map,
    List.getElem_zip, List.getElem_zipWith]
  rw [List.getD_eq_getElem _ _ hj, List.getD_eq_getElem _ _ (hm ▸ hj),
    List.getD_eq_getElem _ _ (hs ▸ hj)]

/-- C3: whenever at least one grid point is untrialed, the UCB selection
returns an in-range index whose trialed-mask entry is false: trialed
entries are forced to `-inf` before the arg-max. -/
theorem ucb_never_selects_trialed (mean std : List ℚ) (kappa : ℚ)
    (mask : List Bool)
    (hm : mean.length = mask.length) (hs : std.length = mask.length)
    (i : ℕ) (hi : i < mask.length) (hfree : mask.getD i true = false) :
    chooseNextThetaIndexUCB mean std kappa mask < mask.length ∧
    mask.getD (chooseNextThetaIndexUCB mean std kappa mask) true = false := by
  have hlen : (ucbMasked mean std kappa mask).length = mask.length :=
    length_ucbMasked mean std kappa mask hm hs
  have hne : ucbMasked mean std kappa mask ≠ [] := by
    intro hnil
    rw [hnil] at hlen
    simp only [List.length_nil] at hlen
    omega
  obtain ⟨v, hv, hall⟩ := exists_max_mem _ hne
  have hex : ∃ x ∈ ucbMasked mean std kappa mask,
      (fun u => (ucbMasked mean std kappa mask).all
        (fun w => decide (w ≤ u))) x = true := by
    refine ⟨v, hv, ?_⟩
    simp only [List.all_eq_true]
    intro w hw
    exact decide_eq_true (hall w hw)
  have hjlt : (ucbMasked mean std kappa mask).findIdx
      (fun u => (ucbMasked mean std kappa mask).all (fun w => decide (w ≤ u)))
      < (ucbMasked mean std kappa mask).length :=
    List.findIdx_lt_length_of_exists hex
  have hjmask : chooseNextThetaIndexUCB mean std kappa mask < mask.length := by
    rw [← hlen]
    exact hjlt
  refine ⟨hjmask, ?_⟩
  have hp := @List.findIdx_getElem _
    (fun u => (ucbMasked mean std kappa mask).all (fun w => decide (w ≤ u)))
    (ucbMasked mean std kappa mask) hjlt
  simp only [List.all_eq_true] at hp
  have hiv : (ucbMasked mean std kappa mask).getD i 0
      = ((mean.getD i 0 + kappa * std.getD i 0 : ℚ) : WithBot ℚ) := by
    rw [getElem_ucbMasked mean std kappa mask hm hs i hi, hfree]
    simp
  have hilt : i < (ucbMasked mean std kappa mask).length := by
    rw [hlen]; exact hi
  have hmem : (ucbMasked mean std kappa mask).getD i 0
      ∈ ucbMasked mean std kappa mask := by
    rw [List.getD_eq_getElem _ _ hilt]
    exact List.getElem_mem hilt
  have hle := of_decide_eq_true (hp _ hmem)
  rw [hiv] at hle
  by_contra hmasked
  have hmasked' : mask.getD (chooseNextThetaIndexUCB mean std kappa mask) true
      = true := by
    cases hmt : mask.getD (chooseNextThetaIndexUCB mean std kappa mask) true
    · exact absurd hmt hmasked
    · rfl
  have hbot : (ucbMasked mean std kappa mask).getD
      (chooseNextThetaIndexUCB mean std kappa mask) 0 = (⊥ : WithBot ℚ) := by
    rw [getElem_ucbMasked mean std kappa mask hm hs _ hjmask, hmasked']
    simp
  rw [List.getD_eq_getElem _ _ (by rw [hlen]; exact hjmask)] at hbot
  have hbot' : (ucbMasked mean std kappa mask)[(ucbMasked mean std kappa
      mask).findIdx (fun u => (ucbMasked mean std kappa mask).all
        (fun w => decide (w ≤ u)))] = (⊥ : WithBot ℚ) := hbot
  rw [hbot'] at hle
  rw [le_bot_iff] at hle
  exact WithBot.coe_ne_bot hle

/-- Witness for the hypotheses of `ucb_never_selects_trialed`: a
two-point grid with the first point trialed. -/
theorem ucb_never_selects_trialed_witness :
    chooseNextThetaIndexUCB [10, 0] [0, 0] 1 [true, false] < 2 ∧
    ([true, false] : List Bool).getD
      (chooseNextThetaIndexUCB [10, 0] [0, 0] 1 [true, false]) true = false := by
  have h := ucb_never_selects_trialed [10, 0] [0, 0] 1 [true, false]
    (by decide) (by decide) 1 (by decide) (by decide)
  simpa using h

/-! ## param_scan (ratio_model.py, `param_scan` and `_to_meshgrid_shape`)

The fitted model's per-example log-ratio prediction
`model.predict(X, theta_1s, log=True)` is abstracted as a pointwise
function `f : Vec → Vec → ℚ` applied to each (example, parameter) row
pair, per the RatioModel contract. -/

/-- The sizes of `np.array_split(arr, k)`: the first `n % k` parts have
`n / k + 1` elements, the remaining ones `n / k`. -/
def splitSizes (n k : ℕ) : List ℕ :=
  (List.range k).map (fun i => if i < n % k then n / k + 1 else n / k)

/-- Cut a list into consecutive parts of the given sizes. -/
def splitBySizes {α : Type} : List ℕ → List α → List (List α)
  | [], _ => []
  | s :: ss, l => l.take s :: splitBySizes ss (l.drop s)

/-- `np.array_split(l, k, axis=0)`. -/
def arraySplit {α : Type} (l : List α) (k : ℕ) : List (List α) :=
  splitBySizes (splitSizes l.length k) l

/-- `tile_reshape(theta, reps)`: `reps` rows of `theta` (the missing
`util` helper; its semantics is forced by the `np.split`-based reduction
below, which pairs each grid parameter with every observed example). -/
def tileReshape (θ : Vec) (reps : ℕ) : List Vec := List.replicate reps θ

/-- `np.split(arr, k)`: `k` equal parts. -/
def splitEqParts {α : Type} (l : List α) (k : ℕ) : List (List α) :=
  splitBySizes (List.replicate k (l.length / k)) l

/-- One `theta_group` iteration of `param_scan`: build the tiled
`theta_1s`, repeat `X_true` whole once per group member, predict the
per-example log-ratio, and reduce each per-theta block of `-logr` to its
sum. -/
def groupNllr (f : Vec → Vec → ℚ) (X : List Vec) (g : List Vec) : List ℚ :=
  let theta_1s := (g.map (fun θ => tileReshape θ X.length)).flatten
  let bigX := concatRepeat X g.length
  let logr := List.zipWith f bigX theta_1s
  (splitEqParts (logr.map (fun r => -r)) g.length).map (fun c => c.sum)

/-- The flat nllr profile accumulated over all theta groups. -/
def paramScanFlat (f : Vec → Vec → ℚ) (X : List Vec) (grid : List Vec)
    (k : ℕ) : List ℚ :=
  ((arraySplit grid k).map (groupNllr f X)).flatten

/-- A shaped numerical array: shape plus row-major data. -/
structure NDArr where
  shape : List ℕ
  data : List ℚ

/-- The shape of `param_grid.meshgrid()[0]`: `np.meshgrid` with its
default indexing swaps the first two axes when there are at least two
dimensions. -/
def meshgridShape (nums : List ℕ) : List ℕ :=
  match nums with
  | n1 :: n2 :: rest => n2 :: n1 :: rest
  | l => l

/-- Modelled from the spec: `util.outer_prod_shape_to_meshgrid_shape`
(behind `_to_meshgrid_shape`) is not among the provided sources; per the
spec the flat profile "must be reshaped to exactly match the shape of the
grid's own mesh-grid representation, preserving the same axis ordering
used to build the grid", so the data keeps its flat order. -/
def toMeshgridShape (arr : List ℚ) (nums : List ℕ) : NDArr :=
  ⟨meshgridShape nums, arr⟩

/-- `np.argmin`: the first index attaining the minimum. -/
def argminIdx (l : List ℚ) : ℕ :=
  l.findIdx (fun v => l.all (fun w => decide (v ≤ w)))

/-- `param_scan`: the reshaped per-grid-point nllr profile and the MLE
`param_grid[np.argmin(nllr)]`. -/
def paramScan (f : Vec → Vec → ℚ) (X : List Vec) (bounds : List (ℚ × ℚ))
    (nums : List ℕ) (k : ℕ) : NDArr × Vec :=
  let grid := paramGridValues bounds nums
  let nllr := paramScanFlat f X grid k
  (toMeshgridShape nllr nums, grid.getD (argminIdx nllr) [])

theorem zipWith_replicate_right (f : Vec → Vec → ℚ) (θ : Vec) (X : List Vec) :
    List.zipWith f X (List.replicate X.length θ) = X.map (fun x => f x θ) := by
  induction X with
  | nil => rfl
  | cons x xs ih => simp [List.replicate_succ, ih]

theorem zipWith_concatRepeat (f : Vec → Vec → ℚ) (X : List Vec)
    (g : List Vec) :
    List.zipWith f (concatRepeat X g.length)
        ((g.map (fun θ => tileReshape θ X.length)).flatten)
      = (g.map (fun θ => X.map (fun x => f x θ))).flatten := by
  induction g with
  | nil => simp [concatRepeat]
  | cons θ gs ih =>
    have hrep : concatRepeat X (θ :: gs).length
        = X ++ concatRepeat X gs.length := by
      simp [concatRepeat, List.replicate_succ]
    rw [hrep, List.map_cons, List.flatten_cons, List.map_cons,
      List.flatten_cons]
    rw [List.zipWith_append _ _ _ _ _ (by simp [tileReshape]), ih]
    congr 1
    exact zipWith_replicate_right f θ X

theorem splitBySizes_flatten_uniform {α : Type} (m : ℕ)
    (chunks : List (List α)) (hc : ∀ c ∈ chunks, c.length = m) :
    splitBySizes (List.replicate chunks.length m) chunks.flatten = chunks := by
  induction chunks with
  | nil => rfl
  | cons c cs ih =>
    have hcm : c.length = m := hc c (List.mem_cons_self c cs)
    rw [List.length_cons, List.replicate_succ, splitBySizes,
      List.flatten_cons]
    rw [← hcm, List.take_left, List.drop_left, hcm]
    rw [ih (fun d hd => hc d (List.mem_cons_of_mem c hd))]

theorem length_flatten_uniform {α : Type} (m : ℕ) (chunks : List (List α))
    (hc : ∀ c ∈ chunks, c.length = m) :
    chunks.flatten.length = chunks.length * m := by
  induction chunks with
  | nil => simp
  | cons c cs ih =>
    rw [List.flatten_cons, List.length_append,
      hc c (List.mem_cons_self c cs),
      ih (fun d hd => hc d (List.mem_cons_of_mem c hd)), List.length_cons,
      Nat.succ_mul, Nat.add_comm]

/-- One group of `param_scan` computes exactly the per-theta sums of the
negated pointwise predictions. -/
theorem groupNllr_eq (f : Vec → Vec → ℚ) (X : List Vec) (g : List Vec) :
    groupNllr f X g = g.map (fun θ => (X.map (fun x => -(f x θ))).sum) := by
  have hA : (List.zipWith f (concatRepeat X g.length)
      ((g.map (fun θ => tileReshape θ X.length)).flatten)).map (fun r => -r)
      = (g.map (fun θ => X.map (fun x => -(f x θ)))).flatten := by
    rw [zipWith_concatRepeat, List.map_flatten]
    congr 1
    rw [List.map_map]
    apply List.map_congr_left
    intro θ _
    simp [List.map_map]
  show (splitEqParts ((List.zipWith f (concatRepeat X g.length)
      ((g.map (fun θ => tileReshape θ X.length)).flatten)).map
        (fun r => -r)) g.length).map (fun c => c.sum) = _
  rw [hA]
  have hchunks : ∀ c ∈ g.map (fun θ => X.map (fun x => -(f x θ))),
      c.length = X.length := by
    intro c hc
    rw [List.mem_map] at hc
    obtain ⟨θ, -, rfl⟩ := hc
    simp
  cases g with
  | nil => rfl
  | cons θ0 gs =>
    have hlen : ((θ0 :: gs).map
        (fun θ => X.map (fun x => -(f x θ)))).flatten.length
        = (θ0 :: gs).length * X.length := by
      rw [length_flatten_uniform X.length _ hchunks, List.length_map]
    have hdiv : ((θ0 :: gs).map
        (fun θ => X.map (fun x => -(f x θ)))).flatten.length
          / (θ0 :: gs).length = X.length := by
      rw [hlen, List.length_cons]
      exact Nat.mul_div_cancel_left _ (by omega)
    rw [splitEqParts, hdiv]
    have hnum : (θ0 :: gs).length
        = ((θ0 :: gs).map (fun θ => X.map (fun x => -(f x θ)))).length := by
      rw [List.length_map]
    rw [hnum, splitBySizes_flatten_uniform X.length _ hchunks]
    rw [List.map_map]
    rfl

theorem sum_if_range (k r q : ℕ) :
    ((List.range k).map (fun i => if i < r then q + 1 else q)).sum
      = k * q + min r k := by
  induction k with
  | zero => simp
  | succ kk ih =>
    rw [List.range_succ, List.map_append, List.sum_append, ih]
    by_cases hk : kk < r
    · have hmin1 : min r kk = kk := Nat.min_eq_right (Nat.le_of_lt hk)
      have hmin2 : min r (kk + 1) = kk + 1 := Nat.min_eq_right hk
      simp only [List.map_cons, List.map_nil, List.sum_cons, List.sum_nil,
        hk, if_true, hmin1, hmin2]
      ring
    · have hrk : r ≤ kk := Nat.le_of_not_lt hk
      have hmin1 : min r kk = r := Nat.min_eq_left hrk
      have hmin2 : min r (kk + 1) = r := Nat.min_eq_left (Nat.le_succ_of_le hrk)
      simp only [List.map_cons, List.map_nil, List.sum_cons, List.sum_nil,
        hk, if_false, hmin1, hmin2]
      ring

theorem sum_splitSizes (n k : ℕ) (hk : 1 ≤ k) : (splitSizes n k).sum = n := by
  rw [splitSizes, sum_if_range]
  have hmod : n % k < k := Nat.mod_lt n hk
  rw [Nat.min_eq_left (Nat.le_of_lt hmod)]
  exact Nat.div_add_mod n k

theorem flatten_splitBySizes {α : Type} (ss : List ℕ) (l : List α)
    (h : ss.sum = l.length) : (splitBySizes ss l).flatten = l := by
  induction ss generalizing l with
  | nil =>
    simp only [List.sum_nil] at h
    cases l with
    | nil => rfl
    | cons a t => simp at h
  | cons s ss ih =>
    rw [splitBySizes, List.flatten_cons]
    rw [ih (l.drop s) ?_, List.take_append_drop]
    rw [List.length_drop]
    rw [List.sum_cons] at h
    omega

/-- C4: `param_scan` returns the profile whose flat data is the per-grid-
point sum over observed examples of the negated log predicted likelihood
ratio, with the mesh-grid shape, and an MLE equal to the grid indexed at
the arg-min of the flattened profile. -/
theorem param_scan_correct (f : Vec → Vec → ℚ) (X : List Vec)
    (bounds : List (ℚ × ℚ)) (nums : List ℕ) (k : ℕ) (hk1 : 1 ≤ k)
    (hk2 : k ≤ (paramGridValues bounds nums).length) :
    (paramScan f X bounds nums k).1.data
      = (paramGridValues bounds nums).map
          (fun θ => (X.map (fun x => -(f x θ))).sum) ∧
    (paramScan f X bounds nums k).1.shape = meshgridShape nums ∧
    (paramScan f X bounds nums k).2
      = (paramGridValues bounds nums).getD
          (argminIdx (paramScan f X bounds nums k).1.data) [] := by
  refine ⟨?_, rfl, rfl⟩
  show paramScanFlat f X (paramGridValues bounds nums) k = _
  rw [paramScanFlat]
  have hmap : (arraySplit (paramGridValues bounds nums) k).map
      (groupNllr f X)
      = (arraySplit (paramGridValues bounds nums) k).map
          (fun g => g.map (fun θ => (X.map (fun x => -(f x θ))).sum)) := by
    apply List.map_congr_left
    intro g _
    exact groupNllr_eq f X g
  rw [hmap, ← List.map_flatten, arraySplit,
    flatten_splitBySizes _ _ (sum_splitSizes _ k hk1)]

/-- Witness for the hypotheses of `param_scan_correct`: a two-point 1-D
grid, two observed examples, one batch. -/
theorem param_scan_correct_witness :
    (paramScan (fun x θ => x.headD 0 * θ.headD 0) [[1], [2]]
        [(0, 1)] [2] 1).1.data
      = (paramGridValues [(0, 1)] [2]).map
          (fun θ => (([[1], [2]] : List Vec).map
            (fun x => -((fun (x θ : Vec) => x.headD 0 * θ.headD 0) x θ))).sum) ∧
    (paramScan (fun x θ => x.headD 0 * θ.headD 0) [[1], [2]]
        [(0, 1)] [2] 1).1.shape = meshgridShape [2] ∧
    (paramScan (fun x θ => x.headD 0 * θ.headD 0) [[1], [2]]
        [(0, 1)] [2] 1).2
      = (paramGridValues [(0, 1)] [2]).getD
          (argminIdx (paramScan (fun x θ => x.headD 0 * θ.headD 0) [[1], [2]]
            [(0, 1)] [2] 1).1.data) [] :=
  param_scan_correct (fun x θ => x.headD 0 * θ.headD 0) [[1], [2]]
    [(0, 1)] [2] 1 (by norm_num)
    (by
      have h : paramGridLinspaces [(0, 1)] [2] = [linspace 0 1 2] := rfl
      rw [paramGridValues, h, cartProd_single, List.length_map,
        length_linspace]
      norm_num)

end ALRE
